import Mathlib

/-!
Verification of `make_factors.py`, a generator of balanced multi-factorial
randomization lists.

The script is embedded shallowly:
* machine integers become `Nat` (the `>i4` sequence values are at most
  `2^16 - 1`, far below `2^31`, so no overflow is reachable);
* the numpy arrays become lists (`List Nat` for 1-d, `List (List Nat)` for 2-d);
* the unseeded random generator becomes an explicit argument `draws`, a stream
  of random numbers per block, consumed by a selection shuffle — every theorem
  below holds for all values of `draws`;
* fallible operations (`np.reshape` with a `-1` dimension) return `Option`.
-/

namespace MakeFactors

/-- Selection shuffle of one row, the model of `rng.permuted` applied to a
single row of the tiled array: each step consumes one random draw, reduces it
modulo the number of remaining elements, moves the element at that index to the
front and recurses on the rest.  The first argument is fuel, always called with
the length of the list, so the recursion is structural and computable. -/
def shuffleAux : Nat → List Nat → List Nat → List Nat
  | 0, _, _ => []
  | n + 1, draws, xs =>
    if xs.isEmpty then []
    else
      let j := draws.headD 0 % xs.length
      xs.getD j 0 :: shuffleAux n draws.tail (xs.eraseIdx j)

/-- Shuffle a whole row using the draw stream `draws`. -/
def shuffle (draws xs : List Nat) : List Nat := shuffleAux xs.length draws xs

/-- `generate_shuffled_sequence(seq_range, reps)` (lines 31-41):
`np.tile(np.arange(seq_range), (reps, 1))` builds `reps` rows each equal to
`[0, …, seq_range)`; `rng.permuted(…, axis=1)` shuffles each row independently
(row `r` consumes the draw stream `draws r`); `.flatten()` concatenates the
rows. -/
def generate_shuffled_sequence (seq_range reps : Nat) (draws : Nat → List Nat) : List Nat :=
  ((List.range reps).map (fun r => shuffle (draws r) (List.range seq_range))).flatten

/-- The big-endian `width`-bit expansion of `v`: entry `i` (from the left) is
bit `width - 1 - i` of `v`.  For `width = 32` this is exactly what
`np.unpackbits` produces on the byte view of one big-endian `>i4` element. -/
def bitsBE (width v : Nat) : List Nat :=
  (List.range width).map (fun i => v / 2 ^ (width - 1 - i) % 2)

/-- `np.reshape` to shape `(rows, cols)` of a flat list: row `r`, column `c`
reads flat index `r * cols + c`. -/
def reshapeRows (rows cols : Nat) (flat : List Nat) : List (List Nat) :=
  (List.range rows).map (fun r => (List.range cols).map (fun c => flat.getD (r * cols + c) 0))

/-- `bittify_sequence(seq)` (lines 44-49):
`np.unpackbits(seq.view(np.uint8)).reshape(len(seq), -1)`.  The sequence holds
big-endian 4-byte integers, so the uint8 view lists each element's 4 bytes most
significant first, and `unpackbits` (most significant bit first within each
byte) yields the concatenation of the 32-bit big-endian expansions.  The
reshape computes the `-1` dimension as `flat.length / len(seq)`; when
`len(seq) = 0` numpy cannot determine it and raises
`ValueError: cannot reshape array of size 0 into shape (0,newaxis)`, modelled
here as `none`. -/
def bittify_sequence (seq : List Nat) : Option (List (List Nat)) :=
  if seq.length = 0 then none
  else
    some (reshapeRows seq.length (((seq.map (bitsBE 32)).flatten).length / seq.length)
      ((seq.map (bitsBE 32)).flatten))

/-- `seq_range = 2**factor_count` (line 53). -/
def seqRangeOf (factor_count : Nat) : Nat := 2 ^ factor_count

/-- `reps = int(np.ceil(list_length / seq_range))` (line 55), the ceiling
division expressed on `Nat` (exact for every reachable argument, since the
float quotient of ints below `2^53` rounds to the same ceiling). -/
def repsOf (list_length factor_count : Nat) : Nat :=
  (list_length + seqRangeOf factor_count - 1) / seqRangeOf factor_count

/-- `sequence = generate_shuffled_sequence(seq_range, reps)` (line 57). -/
def runSequence (list_length factor_count : Nat) (draws : Nat → List Nat) : List Nat :=
  generate_shuffled_sequence (seqRangeOf factor_count) (repsOf list_length factor_count) draws

/-- `make_factor_array(list_length, factor_count)` (lines 52-62): bittify the
shuffled sequence and keep the rightmost `factor_count` columns
(`bits[:, -factor_count:]`). -/
def make_factor_array (list_length factor_count : Nat) (draws : Nat → List Nat) :
    Option (List (List Nat)) :=
  (bittify_sequence (runSequence list_length factor_count draws)).map
    (fun bits => bits.map (fun row => row.drop (row.length - factor_count)))

/-- One CSV file produced by `main`: its name, its header line, and its data
rows as (redcap_randomization_number, redcap_randomization_group) pairs. -/
structure OutputFile where
  fname : String
  header : String
  rows : List (Nat × Nat)
deriving Repr, DecidableEq, Inhabited

/-- Python's `f"{n:02d}"`: decimal digits of `n` left-padded with zeros to
width 2. -/
def pad2 (n : Nat) : String := if n < 10 then "0" ++ toString n else toString n

/-- `main(list_length, factor_count, file_prefix)` (lines 65-81), with the file
writes reified: file `factor_num` (for `factor_num` in `range(1, factor_count+1)`)
is named `{file_prefix}_{factor_num:02d}.csv`, carries the fixed header, and its
row `linenum` is `randomization_numbers[linenum] = linenum + 1` paired with
`factor_bits[linenum, factor_num - 1]`, in sequence order. -/
def mainFiles (list_length factor_count : Nat) ( file_prefix : String)
    (draws : Nat → List Nat) : Option (List OutputFile) :=
  (make_factor_array list_length factor_count draws).map (fun factor_bits =>
    let final_list_length := factor_bits.length
    (List.range factor_count).map (fun idx =>
      let factor_num := idx + 1
      let slice_index := factor_num - 1
      { fname := file_prefix ++ "_" ++ pad2 factor_num ++ ".csv"
        header := "redcap_randomization_number,redcap_randomization_group"
        rows := (List.range final_list_length).map (fun linenum =>
          (linenum + 1, (factor_bits.getD linenum []).getD slice_index 0)) }))

/-- Outcome of one process invocation. -/
inductive RunResult where
  /-- `sys.exit(1)` after logging `msg`: no output files are created. -/
  | usageError (msg : String)
  /-- `int(s)` raised `ValueError`: uncaught, non-zero exit, no output files. -/
  | parseError
  /-- An uncaught error inside `main` before any row is written. -/
  | fatal
  /-- Exit code 0 with the given files written. -/
  | success (files : List OutputFile)
deriving Repr, DecidableEq

/-- The numeric value of a decimal digit character, `none` otherwise. -/
def digit? (c : Char) : Option Nat :=
  if '0' ≤ c ∧ c ≤ '9' then some (c.toNat - '0'.toNat) else none

/-- Accumulate decimal digits left to right; `none` on a non-digit. -/
def parseNatDigits : List Char → Nat → Option Nat
  | [], acc => some acc
  | c :: cs, acc =>
    match digit? c with
    | some d => parseNatDigits cs (10 * acc + d)
    | none => none

/-- Model of Python `int(s)` on the plain decimal forms the interface uses: an
optional minus sign followed by at least one digit parses to its value, and
anything else (in particular every non-numeric string) raises, i.e. `none`.
(Python also strips whitespace and accepts `+` and underscores; those forms are
not exercised by any claim.) -/
def parseIntArg (s : String) : Option Int :=
  match s.toList with
  | [] => none
  | ['-'] => none
  | '-' :: cs => (parseNatDigits cs 0).map (fun n => -(n : Int))
  | cs => (parseNatDigits cs 0).map (fun n => (n : Int))

/-- The usage message logged when fewer than 3 arguments are given (line 86). -/
def usageMsg : String := "Usage: make_factors.py <list_length> <factor_count> <csv_prefix>"

/-- The message logged when `factor_count` is out of range (line 91). -/
def rangeMsg : String := "Must generate between 1 and 16 factors"

/-- The `__main__` block (lines 84-93): `args` is `sys.argv` (so `args[0]` is
the program name).  If `len(sys.argv) < 4`, log usage and exit 1; then parse
`argv[1]` and `argv[2]` with `int` (raising on failure); then reject
`factor_count` outside `[1, 16]` with exit 1; otherwise run `main`.  A negative
`list_length` makes `np.tile` (or the empty reshape) raise inside `main`, and a
`list_length` of zero makes the reshape raise: both are uncaught fatal errors
before any file is opened. -/
def scriptMain (args : List String) (draws : Nat → List Nat) : RunResult :=
  if args.length < 4 then RunResult.usageError usageMsg
  else
    match parseIntArg (args.getD 1 ""), parseIntArg (args.getD 2 "") with
    | some list_length, some factor_count =>
      if factor_count < 1 ∨ factor_count > 16 then RunResult.usageError rangeMsg
      else if list_length < 0 then RunResult.fatal
      else
        match mainFiles list_length.toNat factor_count.toNat (args.getD 3 "") draws with
        | some files => RunResult.success files
        | none => RunResult.fatal
    | _, _ => RunResult.parseError

/-- The big-endian recomposition of a bit row: fold from the most significant
kept bit, `acc ↦ 2 * acc + bit`. -/
def bitsRecompose (row : List Nat) : Nat := row.foldl (fun acc b => 2 * acc + b) 0

/-- The all-zero draw streams, used to instantiate theorems on concrete
inputs: every shuffle then picks index 0, i.e. leaves its row in order. -/
def noDraws : Nat → List Nat := fun _ => []

/-! ### The shuffle of a row is a permutation of the row -/

theorem perm_getD_cons_eraseIdx {xs : List Nat} {j : Nat} (h : j < xs.length) :
    (xs.getD j 0 :: xs.eraseIdx j).Perm xs := by
  rw [List.getD_eq_getElem _ _ h, List.eraseIdx_eq_take_drop_succ]
  refine List.Perm.trans List.perm_middle.symm ?_
  rw [← List.drop_eq_getElem_cons h, List.take_append_drop]

theorem shuffleAux_perm :
    ∀ (n : Nat) (draws xs : List Nat), xs.length ≤ n → (shuffleAux n draws xs).Perm xs := by
  intro n
  induction n with
  | zero =>
    intro draws xs h
    have hxs : xs = [] := List.length_eq_zero.mp (Nat.le_zero.mp h)
    simp [shuffleAux, hxs]
  | succ n ih =>
    intro draws xs h
    by_cases hxs : xs = []
    · simp [shuffleAux, hxs]
    · have hne : xs.isEmpty = false := by simp [hxs]
      have hlen : 0 < xs.length := List.length_pos.mpr hxs
      have hj : draws.headD 0 % xs.length < xs.length := Nat.mod_lt _ hlen
      have herase : (xs.eraseIdx (draws.headD 0 % xs.length)).length ≤ n := by
        rw [List.length_eraseIdx_of_lt hj]
        omega
      simp only [shuffleAux, hne, Bool.false_eq_true, if_false]
      exact ((ih draws.tail _ herase).cons _).trans (perm_getD_cons_eraseIdx hj)

theorem shuffle_perm (draws xs : List Nat) : (shuffle draws xs).Perm xs :=
  shuffleAux_perm _ _ _ (Nat.le_refl _)

theorem length_shuffle (draws xs : List Nat) : (shuffle draws xs).length = xs.length :=
  (shuffle_perm draws xs).length_eq

/-! ### Block structure of the generated sequence -/

theorem sum_replicate_nat (n k : Nat) : (List.replicate n k).sum = n * k := by
  induction n with
  | zero => simp
  | succ n ih => simp [List.replicate_succ, ih, Nat.succ_mul]; omega

theorem flatten_length_uniform {k : Nat} :
    ∀ {l : List (List Nat)}, (∀ x ∈ l, x.length = k) → l.flatten.length = l.length * k := by
  intro l
  induction l with
  | nil => simp
  | cons a t ih =>
    intro h
    simp only [List.flatten_cons, List.length_append, List.length_cons]
    rw [ih (fun x hx => h x (List.mem_cons_of_mem _ hx)), h a (List.mem_cons_self _ _)]
    ring

theorem flatten_drop_take_uniform {k : Nat} :
    ∀ {l : List (List Nat)} (b : Nat), (∀ x ∈ l, x.length = k) → b < l.length →
      (l.flatten.drop (b * k)).take k = l.getD b [] := by
  intro l
  induction l with
  | nil => intro b _ hb; simp at hb
  | cons a t ih =>
    intro b h hb
    have ha : a.length = k := h a (List.mem_cons_self _ _)
    match b with
    | 0 =>
      simp only [Nat.zero_mul, List.drop_zero, List.flatten_cons, List.getD_cons_zero]
      exact List.take_left' ha
    | b + 1 =>
      have hsplit : (b + 1) * k = a.length + b * k := by rw [ha]; ring
      simp only [List.flatten_cons, List.getD_cons_succ]
      rw [hsplit, List.drop_append]
      exact ih b (fun x hx => h x (List.mem_cons_of_mem _ hx)) (by simpa using hb)

theorem generate_blocks_uniform (s reps : Nat) (draws : Nat → List Nat) :
    ∀ x ∈ (List.range reps).map (fun r => shuffle (draws r) (List.range s)), x.length = s := by
  intro x hx
  obtain ⟨r, _, rfl⟩ := List.mem_map.mp hx
  rw [length_shuffle, List.length_range]

theorem length_generate (s reps : Nat) (draws : Nat → List Nat) :
    (generate_shuffled_sequence s reps draws).length = reps * s := by
  unfold generate_shuffled_sequence
  rw [flatten_length_uniform (generate_blocks_uniform s reps draws), List.length_map,
    List.length_range]

theorem generate_block_eq (s reps b : Nat) (draws : Nat → List Nat) (hb : b < reps) :
    ((generate_shuffled_sequence s reps draws).drop (b * s)).take s
      = shuffle (draws b) (List.range s) := by
  unfold generate_shuffled_sequence
  rw [flatten_drop_take_uniform b (generate_blocks_uniform s reps draws) (by simpa using hb),
    List.getD_eq_getElem _ _ (by simpa using hb)]
  simp

theorem generate_block_perm (s reps b : Nat) (draws : Nat → List Nat) (hb : b < reps) :
    (((generate_shuffled_sequence s reps draws).drop (b * s)).take s).Perm (List.range s) := by
  rw [generate_block_eq s reps b draws hb]
  exact shuffle_perm _ _

theorem mem_generate_lt {s reps v : Nat} {draws : Nat → List Nat}
    (hv : v ∈ generate_shuffled_sequence s reps draws) : v < s := by
  unfold generate_shuffled_sequence at hv
  obtain ⟨block, hblock, hvb⟩ := List.mem_flatten.mp hv
  obtain ⟨r, _, rfl⟩ := List.mem_map.mp hblock
  exact List.mem_range.mp ((shuffle_perm (draws r) (List.range s)).mem_iff.mp hvb)

/-! ### Big-endian bit expansions -/

theorem length_bitsBE (w v : Nat) : (bitsBE w v).length = w := by
  simp [bitsBE]

theorem getElem_bitsBE {w i : Nat} (v : Nat) (h : i < (bitsBE w v).length) :
    (bitsBE w v)[i] = v / 2 ^ (w - 1 - i) % 2 := by
  simp [bitsBE]

theorem getD_bitsBE {w i : Nat} (v : Nat) (h : i < w) :
    (bitsBE w v).getD i 0 = v / 2 ^ (w - 1 - i) % 2 := by
  rw [List.getD_eq_getElem _ _ (by simpa [length_bitsBE] using h)]
  exact getElem_bitsBE v _

theorem bitsBE_succ (w v : Nat) : bitsBE (w + 1) v = v / 2 ^ w % 2 :: bitsBE w v := by
  unfold bitsBE
  rw [List.range_succ_eq_map, List.map_cons, List.map_map]
  have h0 : w + 1 - 1 - 0 = w := by omega
  rw [h0]
  congr 1
  apply List.map_congr_left
  intro i _
  have h2 : w - (i + 1) = w - 1 - i := by omega
  simp [Function.comp, Nat.succ_eq_add_one, h2]

theorem foldl_bitsBE (w : Nat) :
    ∀ (acc v : Nat), (bitsBE w v).foldl (fun acc b => 2 * acc + b) acc = acc * 2 ^ w + v % 2 ^ w := by
  induction w with
  | zero =>
    intro acc v
    simp [bitsBE, Nat.mod_one]
  | succ w ih =>
    intro acc v
    rw [bitsBE_succ, List.foldl_cons, ih, Nat.mod_pow_succ]
    ring

theorem bitsRecompose_bitsBE {w v : Nat} (h : v < 2 ^ w) : bitsRecompose (bitsBE w v) = v := by
  unfold bitsRecompose
  rw [foldl_bitsBE w 0 v, Nat.zero_mul, Nat.zero_add, Nat.mod_eq_of_lt h]

theorem bitsBE_drop (a b v : Nat) : (bitsBE (a + b) v).drop a = bitsBE b v := by
  apply List.ext_getElem
  · simp [length_bitsBE]
  · intro i h1 h2
    rw [List.getElem_drop, getElem_bitsBE, getElem_bitsBE]
    have h3 : a + b - 1 - (a + i) = b - 1 - i := by omega
    rw [h3]

theorem bitsBE_take_zero {b : Nat} (a : Nat) {v : Nat} (h : v < 2 ^ b) :
    (bitsBE (a + b) v).take a = List.replicate a 0 := by
  apply List.ext_getElem
  · simp [length_bitsBE]
  · intro i h1 h2
    rw [List.getElem_take, getElem_bitsBE, List.getElem_replicate]
    have hi : i < a := by simpa using h2
    have hbound : b ≤ a + b - 1 - i := by omega
    have hlt : v < 2 ^ (a + b - 1 - i) :=
      Nat.lt_of_lt_of_le h (Nat.pow_le_pow_right (by omega) hbound)
    rw [Nat.div_eq_of_lt hlt]

/-! ### The reshape of the flat bit list recovers the per-element expansions -/

theorem flatten_getD_uniform {k : Nat} :
    ∀ {l : List (List Nat)} (r c : Nat), (∀ x ∈ l, x.length = k) → r < l.length → c < k →
      l.flatten.getD (r * k + c) 0 = (l.getD r []).getD c 0 := by
  intro l
  induction l with
  | nil => intro r c _ hr _; simp at hr
  | cons a t ih =>
    intro r c h hr hc
    have ha : a.length = k := h a (List.mem_cons_self _ _)
    match r with
    | 0 =>
      simp only [Nat.zero_mul, Nat.zero_add, List.flatten_cons, List.getD_cons_zero]
      exact List.getD_append _ _ _ _ (by omega)
    | r + 1 =>
      have hsplit : (r + 1) * k + c = a.length + (r * k + c) := by rw [ha]; ring
      simp only [List.flatten_cons, List.getD_cons_succ]
      rw [hsplit, List.getD_append_right _ _ _ _ (by omega), Nat.add_sub_cancel_left]
      exact ih r c (fun x hx => h x (List.mem_cons_of_mem _ hx)) (by simpa using hr) hc

theorem reshape_flatten_uniform {k : Nat} {l : List (List Nat)}
    (h : ∀ x ∈ l, x.length = k) : reshapeRows l.length k l.flatten = l := by
  apply List.ext_getElem
  · simp [reshapeRows]
  · intro r h1 h2
    simp only [reshapeRows, List.getElem_map, List.getElem_range]
    have hrowlen : l[r].length = k := h _ (List.getElem_mem h2)
    apply List.ext_getElem
    · simpa using hrowlen.symm
    · intro c hc1 hc2
      simp only [List.getElem_map, List.getElem_range]
      rw [flatten_getD_uniform r c h h2 (by simpa using hc1),
        List.getD_eq_getElem _ _ h2, List.getD_eq_getElem _ _ hc2]

theorem bittify_sequence_eq {seq : List Nat} (h : seq ≠ []) :
    bittify_sequence seq = some (seq.map (bitsBE 32)) := by
  have hne : ¬seq.length = 0 := by simpa using (List.length_pos.mpr h).ne'
  have huni : ∀ x ∈ seq.map (bitsBE 32), x.length = 32 := by
    intro x hx
    obtain ⟨v, _, rfl⟩ := List.mem_map.mp hx
    exact length_bitsBE 32 v
  have hflat : ((seq.map (bitsBE 32)).flatten).length = seq.length * 32 := by
    rw [flatten_length_uniform huni, List.length_map]
  unfold bittify_sequence
  rw [if_neg hne, hflat, Nat.mul_div_cancel_left 32 (Nat.pos_of_ne_zero hne)]
  have hlen : seq.length = (seq.map (bitsBE 32)).length := (List.length_map _ _).symm
  rw [hlen, reshape_flatten_uniform huni]

/-! ### The factor array as a map over the shuffled sequence -/

theorem make_factor_array_eq {ll fc : Nat} {draws : Nat → List Nat}
    (h : runSequence ll fc draws ≠ []) :
    make_factor_array ll fc draws
      = some ((runSequence ll fc draws).map (fun v => (bitsBE 32 v).drop (32 - fc))) := by
  unfold make_factor_array
  rw [bittify_sequence_eq h]
  simp only [Option.map_some', List.map_map, Option.some.injEq]
  apply List.map_congr_left
  intro v _
  simp [Function.comp, length_bitsBE]

theorem runSequence_length (ll fc : Nat) (draws : Nat → List Nat) :
    (runSequence ll fc draws).length = repsOf ll fc * 2 ^ fc := by
  unfold runSequence seqRangeOf
  exact length_generate _ _ _

theorem repsOf_pos {ll fc : Nat} (h : 1 ≤ ll) : 1 ≤ repsOf ll fc := by
  unfold repsOf seqRangeOf
  rw [Nat.one_le_div_iff (Nat.two_pow_pos fc)]
  have := Nat.two_pow_pos fc
  omega

theorem le_repsOf_mul (ll fc : Nat) : ll ≤ repsOf ll fc * 2 ^ fc := by
  unfold repsOf seqRangeOf
  have hs := Nat.two_pow_pos fc
  have hdm := Nat.div_add_mod (ll + 2 ^ fc - 1) (2 ^ fc)
  have hlt := Nat.mod_lt (ll + 2 ^ fc - 1) hs
  rw [Nat.mul_comm]
  omega

theorem runSequence_ne_nil {ll : Nat} (fc : Nat) (h : 1 ≤ ll) (draws : Nat → List Nat) :
    runSequence ll fc draws ≠ [] := by
  apply List.ne_nil_of_length_pos
  rw [runSequence_length]
  exact Nat.mul_pos (repsOf_pos h) (Nat.two_pow_pos fc)

/-! ### Counting set and clear bits over a full combination range -/

theorem countP_range_two_pow_one :
    ∀ n : Nat, ∀ k < n,
      (List.range (2 ^ n)).countP (fun v => v / 2 ^ k % 2 == 1) = 2 ^ (n - 1) := by
  intro n
  induction n with
  | zero => intro k hk; exact absurd hk (Nat.not_lt_zero k)
  | succ n ih =>
    intro k hk
    have hpn := Nat.two_pow_pos n
    have hsplit : 2 ^ (n + 1) = 2 ^ n + 2 ^ n := by
      rw [Nat.pow_succ]
      omega
    rw [hsplit, List.range_add, List.countP_append, List.countP_map]
    by_cases hkn : k < n
    · have hshift :
          List.countP ((fun v => v / 2 ^ k % 2 == 1) ∘ (fun x => 2 ^ n + x))
            (List.range (2 ^ n))
          = List.countP (fun v => v / 2 ^ k % 2 == 1) (List.range (2 ^ n)) := by
        apply List.countP_congr
        intro v _
        simp only [Function.comp_apply]
        have hpow : 2 ^ n = 2 ^ k * 2 ^ (n - k) := by
          rw [← Nat.pow_add]
          congr 1
          omega
        have hdiv : (2 ^ n + v) / 2 ^ k = 2 ^ (n - k) + v / 2 ^ k := by
          rw [hpow, Nat.mul_add_div (Nat.two_pow_pos k)]
        have hnk : 2 ^ (n - k) = 2 * 2 ^ (n - k - 1) := by
          conv_lhs => rw [show n - k = (n - k - 1) + 1 by omega]
          rw [Nat.pow_succ, Nat.mul_comm]
        rw [hdiv, hnk, Nat.add_comm, Nat.add_mul_mod_self_left]
      rw [hshift, ih k hkn]
      have hn1 : n - 1 + 1 = n := by omega
      have hsum : 2 ^ (n - 1) + 2 ^ (n - 1) = 2 ^ n := by
        conv_rhs => rw [← hn1]
        rw [Nat.pow_succ]
        omega
      rw [hsum]
      congr 1
    · have hkeq : k = n := by omega
      subst hkeq
      have hzero :
          List.countP (fun v => v / 2 ^ k % 2 == 1) (List.range (2 ^ k)) = 0 := by
        apply List.countP_eq_zero.mpr
        intro v hv
        have : v / 2 ^ k = 0 := Nat.div_eq_of_lt (List.mem_range.mp hv)
        simp [this]
      have hfull :
          List.countP ((fun v => v / 2 ^ k % 2 == 1) ∘ (fun x => 2 ^ k + x))
            (List.range (2 ^ k)) = 2 ^ k := by
        have hall : ∀ v ∈ List.range (2 ^ k),
            ((fun v => v / 2 ^ k % 2 == 1) ∘ (fun x => 2 ^ k + x)) v = true := by
          intro v hv
          simp only [Function.comp_apply]
          have hv0 : v / 2 ^ k = 0 := Nat.div_eq_of_lt (List.mem_range.mp hv)
          have hone : (2 ^ k + v) / 2 ^ k = 1 := by
            rw [Nat.add_comm, Nat.add_div_right _ (Nat.two_pow_pos k), hv0]
          simp [hone]
        rw [List.countP_eq_length.mpr hall, List.length_range]
      rw [hzero, hfull]
      simp

theorem countP_disjoint_pair {p q : Nat → Bool} :
    ∀ {l : List Nat}, (∀ v ∈ l, (p v = true ∧ q v = false) ∨ (p v = false ∧ q v = true)) →
      l.countP p + l.countP q = l.length := by
  intro l
  induction l with
  | nil => simp
  | cons a t ih =>
    intro h
    have ha := h a (List.mem_cons_self _ _)
    have ht := ih (fun v hv => h v (List.mem_cons_of_mem _ hv))
    rcases ha with ⟨h1, h2⟩ | ⟨h1, h2⟩ <;> simp [List.countP_cons, h1, h2] <;> omega

theorem countP_range_two_pow_zero {n k : Nat} (hk : k < n) :
    (List.range (2 ^ n)).countP (fun v => v / 2 ^ k % 2 == 0) = 2 ^ (n - 1) := by
  have h1 := countP_range_two_pow_one n k hk
  have h2 : (List.range (2 ^ n)).countP (fun v => v / 2 ^ k % 2 == 0)
      + (List.range (2 ^ n)).countP (fun v => v / 2 ^ k % 2 == 1)
      = (List.range (2 ^ n)).length := by
    apply countP_disjoint_pair
    intro v _
    rcases Nat.mod_two_eq_zero_or_one (v / 2 ^ k) with h | h <;> simp [h]
  have hlen := List.length_range (2 ^ n)
  have hn1 : n - 1 + 1 = n := by omega
  have hsum : 2 ^ (n - 1) + 2 ^ (n - 1) = 2 ^ n := by
    conv_rhs => rw [← hn1]
    rw [Nat.pow_succ]
    omega
  omega

/-! ### Glue lemmas for the claims -/

theorem seqRangeOf_eq (fc : Nat) : seqRangeOf fc = 2 ^ fc := rfl

theorem runSequence_def (ll fc : Nat) (draws : Nat → List Nat) :
    runSequence ll fc draws
      = generate_shuffled_sequence (2 ^ fc) (repsOf ll fc) draws := rfl

theorem bitsBE_drop_32 {fc : Nat} (h : fc ≤ 32) (v : Nat) :
    (bitsBE 32 v).drop (32 - fc) = bitsBE fc v := by
  have h1 : (32 : Nat) = (32 - fc) + fc := by omega
  rw [h1, Nat.add_sub_cancel]
  exact bitsBE_drop _ _ _

theorem bitsBE_take_32 {fc : Nat} (h : fc ≤ 32) {v : Nat} (hv : v < 2 ^ fc) :
    (bitsBE 32 v).take (32 - fc) = List.replicate (32 - fc) 0 := by
  have h1 : (32 : Nat) = (32 - fc) + fc := by omega
  rw [h1, Nat.add_sub_cancel]
  exact bitsBE_take_zero _ hv

theorem make_factor_array_some {ll fc : Nat} {draws : Nat → List Nat} {table : List (List Nat)}
    (ht : make_factor_array ll fc draws = some table) :
    table = (runSequence ll fc draws).map (fun v => (bitsBE 32 v).drop (32 - fc)) := by
  by_cases h : runSequence ll fc draws = []
  · unfold make_factor_array bittify_sequence at ht
    rw [h] at ht
    simp at ht
  · rw [make_factor_array_eq h, Option.some.injEq] at ht
    exact ht.symm

theorem sum_map_range_const {reps c : Nat} {g : Nat → Nat} (h : ∀ r < reps, g r = c) :
    ((List.range reps).map g).sum = reps * c := by
  have heq : (List.range reps).map g = List.replicate reps c := by
    apply List.ext_getElem
    · simp
    · intro i h1 h2
      simp only [List.getElem_map, List.getElem_range, List.getElem_replicate]
      exact h i (by simpa using h1)
  rw [heq, sum_replicate_nat]

/-- Transport a bit-column count over the kept-columns map: counting rows whose
column `j` equals `bit` over the kept-bit rows of `l` is counting elements `v`
of `l` whose bit `fc - 1 - j` equals `bit`. -/
theorem countP_keep_row {fc j : Nat} (h2 : fc ≤ 16) (hj : j < fc) (l : List Nat) (bit : Nat) :
    (l.map (fun v => (bitsBE 32 v).drop (32 - fc))).countP (fun row => row.getD j 0 == bit)
      = l.countP (fun v => v / 2 ^ (fc - 1 - j) % 2 == bit) := by
  rw [List.countP_map]
  apply List.countP_congr
  intro v _
  simp only [Function.comp_apply]
  rw [bitsBE_drop_32 (by omega) v, getD_bitsBE v hj]

/-- The value of `mainFiles` on a successful run, as a function of the factor
table: file `idx + 1` (0-based `idx`) with its name, header and rows. -/
def filesFor ( fp : String) (fc : Nat) (table : List (List Nat)) : List OutputFile :=
  (List.range fc).map (fun idx =>
    { fname := fp ++ "_" ++ pad2 (idx + 1) ++ ".csv"
      header := "redcap_randomization_number,redcap_randomization_group"
      rows := (List.range table.length).map (fun linenum =>
        (linenum + 1, (table.getD linenum []).getD idx 0)) })

theorem mainFiles_eq {ll fc : Nat} {fp : String} {draws : Nat → List Nat}
    {table : List (List Nat)} (ht : make_factor_array ll fc draws = some table) :
    mainFiles ll fc fp draws = some (filesFor fp fc table) := by
  unfold mainFiles filesFor
  rw [ht]
  rfl

theorem mainFiles_some_inv {ll fc : Nat} {fp : String} {draws : Nat → List Nat}
    {files : List OutputFile} (hf : mainFiles ll fc fp draws = some files) :
    ∃ table, make_factor_array ll fc draws = some table ∧ files = filesFor fp fc table := by
  cases h : make_factor_array ll fc draws with
  | none =>
    unfold mainFiles at hf
    rw [h] at hf
    simp at hf
  | some table =>
    refine ⟨table, rfl, ?_⟩
    rw [mainFiles_eq h, Option.some.injEq] at hf
    exact hf.symm

theorem getD_map_range {α : Type} {n i : Nat} (g : Nat → α) (d : α) (hi : i < n) :
    ((List.range n).map g).getD i d = g i := by
  rw [List.getD_eq_getElem _ _ (by simp [hi])]
  simp

theorem getD_map_of_lt {α β : Type} (f : α → β) (l : List α) {i : Nat} (d : β) (d2 : α)
    (hi : i < l.length) : (l.map f).getD i d = f (l.getD i d2) := by
  rw [List.getD_eq_getElem _ _ (by simp [hi]), List.getD_eq_getElem _ _ hi]
  simp

theorem repsOf_eq (ll fc : Nat) : repsOf ll fc = (ll + 2 ^ fc - 1) / 2 ^ fc := rfl

/-! ### The claims -/

/-- C1: for `seq_range = 2 ^ factor_count` with `factor_count ∈ [1, 16]` and any
`reps ≥ 1` (and for every draw stream, i.e. whatever the random generator
produces), `generate_shuffled_sequence seq_range reps` returns a flat sequence
of length `reps * seq_range` that is the concatenation of `reps` blocks: each
aligned block of length `seq_range` is a permutation of `[0, seq_range)`, so
every combination value occurs exactly once per block, and the rows of a block
read across all factor columns (the kept bits, recomposed big-endian) also form
a permutation of `[0, 2 ^ factor_count)`. -/
theorem claim1_block_permutations (fc reps : Nat) (draws : Nat → List Nat)
    (h1 : 1 ≤ fc) (h2 : fc ≤ 16) (hr : 1 ≤ reps) :
    (generate_shuffled_sequence (2 ^ fc) reps draws).length = reps * 2 ^ fc ∧
    (∀ b < reps,
      (((generate_shuffled_sequence (2 ^ fc) reps draws).drop (b * 2 ^ fc)).take
        (2 ^ fc)).Perm (List.range (2 ^ fc))) ∧
    (∀ b < reps,
      ((((generate_shuffled_sequence (2 ^ fc) reps draws).drop (b * 2 ^ fc)).take
        (2 ^ fc)).map (fun v => bitsRecompose ((bitsBE 32 v).drop (32 - fc)))).Perm
        (List.range (2 ^ fc))) := by
  refine ⟨length_generate _ _ _, fun b hb => generate_block_perm _ _ _ _ hb, fun b hb => ?_⟩
  have hid : ∀ v ∈ ((generate_shuffled_sequence (2 ^ fc) reps draws).drop (b * 2 ^ fc)).take
      (2 ^ fc), bitsRecompose ((bitsBE 32 v).drop (32 - fc)) = v := by
    intro v hv
    have hvlt : v < 2 ^ fc :=
      mem_generate_lt (List.mem_of_mem_drop (List.mem_of_mem_take hv))
    rw [bitsBE_drop_32 (by omega) v, bitsRecompose_bitsBE hvlt]
  rw [List.map_congr_left hid, List.map_id']
  exact generate_block_perm _ _ _ _ hb

theorem claim1_witness :
    (generate_shuffled_sequence (2 ^ 2) 3 noDraws).length = 3 * 2 ^ 2 ∧
    (((generate_shuffled_sequence (2 ^ 2) 3 noDraws).drop (1 * 2 ^ 2)).take (2 ^ 2)).Perm
      (List.range (2 ^ 2)) :=
  ⟨(claim1_block_permutations 2 3 noDraws (by decide) (by decide) (by decide)).1,
   (claim1_block_permutations 2 3 noDraws (by decide) (by decide) (by decide)).2.1 1 (by decide)⟩

/-- C2: for `factor_count ∈ [1, 16]`, within every aligned block of
`2 ^ factor_count` consecutive rows of the factor assignment table produced by
`make_factor_array` (the output is a concatenation of exactly such blocks),
each column `j < factor_count` holds exactly `2 ^ (factor_count - 1)` ones and
`2 ^ (factor_count - 1)` zeros; consequently each column is exactly 1:1
balanced across the whole table. -/
theorem claim2_column_balance (ll fc : Nat) (draws : Nat → List Nat) (table : List (List Nat))
    (h1 : 1 ≤ fc) (h2 : fc ≤ 16) (ht : make_factor_array ll fc draws = some table)
    (b j : Nat) (hb : b < repsOf ll fc) (hj : j < fc) :
    ((table.drop (b * 2 ^ fc)).take (2 ^ fc)).countP (fun row => row.getD j 0 == 1)
      = 2 ^ (fc - 1) ∧
    ((table.drop (b * 2 ^ fc)).take (2 ^ fc)).countP (fun row => row.getD j 0 == 0)
      = 2 ^ (fc - 1) ∧
    table.countP (fun row => row.getD j 0 == 1)
      = table.countP (fun row => row.getD j 0 == 0) := by
  have hteq := make_factor_array_some ht
  have hk : fc - 1 - j < fc := by omega
  have hblock : (table.drop (b * 2 ^ fc)).take (2 ^ fc)
      = (((runSequence ll fc draws).drop (b * 2 ^ fc)).take (2 ^ fc)).map
          (fun v => (bitsBE 32 v).drop (32 - fc)) := by
    rw [hteq, List.map_take, List.map_drop]
  have hperm : (((runSequence ll fc draws).drop (b * 2 ^ fc)).take (2 ^ fc)).Perm
      (List.range (2 ^ fc)) := by
    rw [runSequence_def]
    exact generate_block_perm _ _ _ _ hb
  refine ⟨?_, ?_, ?_⟩
  · rw [hblock, countP_keep_row h2 hj _ 1, hperm.countP_eq]
    exact countP_range_two_pow_one fc _ hk
  · rw [hblock, countP_keep_row h2 hj _ 0, hperm.countP_eq]
    exact countP_range_two_pow_zero hk
  · have htab : ∀ bit : Nat,
        table.countP (fun row => row.getD j 0 == bit)
          = (runSequence ll fc draws).countP
              (fun v => v / 2 ^ (fc - 1 - j) % 2 == bit) := by
      intro bit
      rw [hteq]
      exact countP_keep_row h2 hj _ bit
    have hcount : ∀ (bit cbit : Nat),
        (List.range (2 ^ fc)).countP (fun v => v / 2 ^ (fc - 1 - j) % 2 == bit) = cbit →
        (runSequence ll fc draws).countP (fun v => v / 2 ^ (fc - 1 - j) % 2 == bit)
          = repsOf ll fc * cbit := by
      intro bit cbit hc
      rw [runSequence_def]
      unfold generate_shuffled_sequence
      rw [List.countP_flatten, List.map_map]
      apply sum_map_range_const
      intro r _
      simp only [Function.comp_apply]
      rw [(shuffle_perm (draws r) (List.range (2 ^ fc))).countP_eq]
      exact hc
    rw [htab 1, htab 0, hcount 1 _ (countP_range_two_pow_one fc _ hk),
      hcount 0 _ (countP_range_two_pow_zero hk)]

set_option maxRecDepth 40000 in
theorem claim2_witness :
    make_factor_array 4 2 noDraws = some [[0, 0], [0, 1], [1, 0], [1, 1]] ∧
    (((([[0, 0], [0, 1], [1, 0], [1, 1]] : List (List Nat)).drop (0 * 2 ^ 2)).take
        (2 ^ 2)).countP (fun row => row.getD 0 0 == 1) = 2 ^ (2 - 1)) ∧
    (([[0, 0], [0, 1], [1, 0], [1, 1]] : List (List Nat)).countP
        (fun row => row.getD 0 0 == 1)
      = ([[0, 0], [0, 1], [1, 0], [1, 1]] : List (List Nat)).countP
          (fun row => row.getD 0 0 == 0)) :=
  ⟨by decide,
   (claim2_column_balance 4 2 noDraws [[0, 0], [0, 1], [1, 0], [1, 1]]
      (by decide) (by decide) (by decide) 0 0 (by decide) (by decide)).1,
   (claim2_column_balance 4 2 noDraws [[0, 0], [0, 1], [1, 0], [1, 1]]
      (by decide) (by decide) (by decide) 0 0 (by decide) (by decide)).2.2⟩

/-- C3: for every `list_length ≥ 1` and `factor_count ∈ [1, 16]` (and every
draw stream), the run produces files; every one of the `factor_count` files has
exactly `ceil(list_length / 2^factor_count) * 2^factor_count` data rows — a
multiple of `2^factor_count`, at least `list_length` (rounded up, never
truncated), and the same value for every file of the run. -/
theorem claim3_output_length (ll fc : Nat) (fp : String) (draws : Nat → List Nat)
    (h0 : 1 ≤ ll) (h1 : 1 ≤ fc) (h2 : fc ≤ 16) :
    (∃ files, mainFiles ll fc fp draws = some files) ∧
    (∀ files, mainFiles ll fc fp draws = some files →
      files.length = fc ∧
      ∀ file ∈ files,
        file.rows.length = (ll + 2 ^ fc - 1) / 2 ^ fc * 2 ^ fc ∧
        2 ^ fc ∣ file.rows.length ∧
        ll ≤ file.rows.length) := by
  have hne := runSequence_ne_nil fc h0 draws
  have harr := make_factor_array_eq hne
  refine ⟨⟨_, mainFiles_eq harr⟩, ?_⟩
  intro files hf
  obtain ⟨table, htab, hfe⟩ := mainFiles_some_inv hf
  have htlen : table.length = repsOf ll fc * 2 ^ fc := by
    rw [make_factor_array_some htab, List.length_map, runSequence_length]
  subst hfe
  refine ⟨by simp [filesFor], ?_⟩
  intro file hmem
  obtain ⟨idx, _, rfl⟩ := List.mem_map.mp hmem
  have hlen : (OutputFile.mk (fp ++ "_" ++ pad2 (idx + 1) ++ ".csv")
      "redcap_randomization_number,redcap_randomization_group"
      ((List.range table.length).map (fun linenum =>
        (linenum + 1, (table.getD linenum []).getD idx 0)))).rows.length
      = table.length := by
    simp
  refine ⟨?_, ?_, ?_⟩
  · rw [hlen, htlen, repsOf_eq]
  · rw [hlen, htlen]
    exact dvd_mul_left _ _
  · rw [hlen, htlen]
    exact le_repsOf_mul ll fc

set_option maxRecDepth 40000 in
theorem claim3_witness :
    mainFiles 10 2 "p" noDraws = some (filesFor "p" 2
      [[0, 0], [0, 1], [1, 0], [1, 1], [0, 0], [0, 1], [1, 0], [1, 1],
       [0, 0], [0, 1], [1, 0], [1, 1]]) ∧
    ((filesFor "p" 2
      [[0, 0], [0, 1], [1, 0], [1, 1], [0, 0], [0, 1], [1, 0], [1, 1],
       [0, 0], [0, 1], [1, 0], [1, 1]]).getD 0 default).rows.length
      = (10 + 2 ^ 2 - 1) / 2 ^ 2 * 2 ^ 2 := by
  have hf : mainFiles 10 2 "p" noDraws = some (filesFor "p" 2
      [[0, 0], [0, 1], [1, 0], [1, 1], [0, 0], [0, 1], [1, 0], [1, 1],
       [0, 0], [0, 1], [1, 0], [1, 1]]) := by decide
  have h := (claim3_output_length 10 2 "p" noDraws (by decide) (by decide) (by decide)).2
    _ hf
  exact ⟨hf, (h.2 _ (by decide)).1⟩

/-- C4: for every successful run, the bit decomposer expands each sequence
value to its full 32-bit big-endian expansion (the width of the underlying
`>i4` integers) and keeps the rightmost `factor_count` columns: the data bit at
row `i` of file `f` (for `f ∈ [1, factor_count]`) is bit `factor_count - f` of
the `i`-th sequence value, counting bit 0 as least significant. -/
theorem claim4_bit_mapping (ll fc : Nat) (fp : String) (draws : Nat → List Nat)
    (files : List OutputFile)
    (h0 : 1 ≤ ll) (h1 : 1 ≤ fc) (h2 : fc ≤ 16)
    (hf : mainFiles ll fc fp draws = some files)
    (f : Nat) (hfa : 1 ≤ f) (hfb : f ≤ fc)
    (i : Nat) (hi : i < (runSequence ll fc draws).length) :
    bittify_sequence (runSequence ll fc draws)
      = some ((runSequence ll fc draws).map (bitsBE 32)) ∧
    ((files.getD (f - 1) default).rows.getD i (0, 0)).2
      = (runSequence ll fc draws).getD i 0 / 2 ^ (fc - f) % 2 := by
  refine ⟨bittify_sequence_eq (runSequence_ne_nil fc h0 draws), ?_⟩
  obtain ⟨table, htab, hfe⟩ := mainFiles_some_inv hf
  have hteq := make_factor_array_some htab
  subst hfe
  have hf1 : f - 1 < fc := by omega
  have hitab : i < table.length := by
    rw [hteq, List.length_map]
    exact hi
  rw [filesFor, getD_map_range _ default hf1]
  rw [getD_map_range _ (0, 0) hitab]
  rw [hteq, getD_map_of_lt _ _ _ 0 hi, bitsBE_drop_32 (by omega),
    getD_bitsBE _ hf1]
  have hexp : fc - 1 - (f - 1) = fc - f := by omega
  rw [hexp]

set_option maxRecDepth 40000 in
theorem claim4_witness :
    bittify_sequence (runSequence 4 2 noDraws)
      = some ((runSequence 4 2 noDraws).map (bitsBE 32)) ∧
    (((filesFor "p" 2 [[0, 0], [0, 1], [1, 0], [1, 1]]).getD (2 - 1) default).rows.getD 2
        (0, 0)).2
      = (runSequence 4 2 noDraws).getD 2 0 / 2 ^ (2 - 2) % 2 :=
  claim4_bit_mapping 4 2 "p" noDraws (filesFor "p" 2 [[0, 0], [0, 1], [1, 0], [1, 1]])
    (by decide) (by decide) (by decide) (by decide) 2 (by decide) (by decide) 2 (by decide)

/-- C5: in every file of a successful run, the first column of the data rows
(the randomization numbers) is exactly `1, 2, …, actual_list_length` in order:
no gaps, no repeats. -/
theorem claim5_randomization_numbers (ll fc : Nat) (fp : String) (draws : Nat → List Nat)
    (files : List OutputFile) (hf : mainFiles ll fc fp draws = some files) :
    ∀ file ∈ files,
      file.rows.map Prod.fst = (List.range file.rows.length).map (fun i => i + 1) := by
  intro file hmem
  obtain ⟨table, htab, hfe⟩ := mainFiles_some_inv hf
  subst hfe
  obtain ⟨idx, _, rfl⟩ := List.mem_map.mp hmem
  simp [List.map_map, Function.comp]

set_option maxRecDepth 40000 in
theorem claim5_witness :
    ((filesFor "p" 1 [[0], [1]]).getD 0 default).rows.map Prod.fst
      = (List.range ((filesFor "p" 1 [[0], [1]]).getD 0 default).rows.length).map
          (fun i => i + 1) :=
  claim5_randomization_numbers 2 1 "p" noDraws (filesFor "p" 1 [[0], [1]]) (by decide)
    _ (by decide)

/-- C6: for every factor index `f ∈ [1, factor_count]` of a successful run, the
writer creates the file named `{file_prefix}_{f:02d}.csv` (zero-padded to two
digits), whose content is the fixed header line followed by one row
`(1-based row index, bit of factor f at that row)` per table row, in the
shuffled sequence order, not re-sorted. -/
theorem claim6_writer_format (ll fc : Nat) (fp : String) (draws : Nat → List Nat)
    (files : List OutputFile) (h1 : 1 ≤ fc) (h2 : fc ≤ 16)
    (hf : mainFiles ll fc fp draws = some files)
    (f : Nat) (hfa : 1 ≤ f) (hfb : f ≤ fc) :
    files.length = fc ∧
    (files.getD (f - 1) default).fname
      = fp ++ "_" ++ (if f < 10 then "0" ++ toString f else toString f) ++ ".csv" ∧
    (files.getD (f - 1) default).header
      = "redcap_randomization_number,redcap_randomization_group" ∧
    ∃ table, make_factor_array ll fc draws = some table ∧
      (files.getD (f - 1) default).rows
        = (List.range table.length).map (fun i => (i + 1, (table.getD i []).getD (f - 1) 0)) := by
  obtain ⟨table, htab, hfe⟩ := mainFiles_some_inv hf
  subst hfe
  have hf1 : f - 1 < fc := by omega
  have hff : f - 1 + 1 = f := by omega
  have hfile := getD_map_range (n := fc)
    (fun idx => OutputFile.mk (fp ++ "_" ++ pad2 (idx + 1) ++ ".csv")
      "redcap_randomization_number,redcap_randomization_group"
      ((List.range table.length).map (fun linenum =>
        (linenum + 1, (table.getD linenum []).getD idx 0)))) default hf1
  refine ⟨by simp [filesFor], ?_, ?_, table, htab, ?_⟩
  · rw [filesFor, hfile]
    show fp ++ "_" ++ pad2 (f - 1 + 1) ++ ".csv" = _
    rw [hff]
    rfl
  · rw [filesFor, hfile]
  · rw [filesFor, hfile]

set_option maxRecDepth 40000 in
theorem claim6_witness :
    (filesFor "p" 2 [[0, 0], [0, 1], [1, 0], [1, 1]]).length = 2 ∧
    ((filesFor "p" 2 [[0, 0], [0, 1], [1, 0], [1, 1]]).getD (1 - 1) default).fname
      = "p" ++ "_" ++ (if 1 < 10 then "0" ++ toString 1 else toString 1) ++ ".csv" ∧
    ((filesFor "p" 2 [[0, 0], [0, 1], [1, 0], [1, 1]]).getD (1 - 1) default).header
      = "redcap_randomization_number,redcap_randomization_group" :=
  ⟨(claim6_writer_format 4 2 "p" noDraws (filesFor "p" 2 [[0, 0], [0, 1], [1, 0], [1, 1]])
      (by decide) (by decide) (by decide) 1 (by decide) (by decide)).1,
   (claim6_writer_format 4 2 "p" noDraws (filesFor "p" 2 [[0, 0], [0, 1], [1, 0], [1, 1]])
      (by decide) (by decide) (by decide) 1 (by decide) (by decide)).2.1,
   (claim6_writer_format 4 2 "p" noDraws (filesFor "p" 2 [[0, 0], [0, 1], [1, 0], [1, 1]])
      (by decide) (by decide) (by decide) 1 (by decide) (by decide)).2.2.1⟩

set_option maxRecDepth 40000 in
/-- C7 counterexample: the check is `len(sys.argv) < 4`, so an invocation with
4 positional arguments (5 entries of `sys.argv`, i.e. more than the 3 the claim
says are required) does not exit with code 1 — it runs to success and writes
the output files, the extra argument silently ignored. -/
theorem claim7_counterexample :
    scriptMain ["make_factors.py", "4", "2", "p", "extra"] noDraws
      = RunResult.success (filesFor "p" 2 [[0, 0], [0, 1], [1, 0], [1, 1]]) := by
  decide

/-- C7 (amended): the program requires at least 3 positional arguments: every
invocation with fewer than 3 (argument count of `sys.argv` below 4) exits with
code 1 and the usage message before generating any output, while arguments
beyond the third are ignored — the run behaves exactly as if they were
absent. -/
theorem claim7_usage_amended (args extras : List String) (draws : Nat → List Nat) :
    (args.length < 4 → scriptMain args draws = RunResult.usageError usageMsg) ∧
    (4 ≤ args.length → scriptMain (args ++ extras) draws = scriptMain args draws) := by
  constructor
  · intro h
    unfold scriptMain
    rw [if_pos h]
  · intro h
    unfold scriptMain
    have hlen : ¬(args ++ extras).length < 4 := by
      rw [List.length_append]
      omega
    rw [if_neg hlen, if_neg (by omega), List.getD_append _ _ _ _ (by omega),
      List.getD_append _ _ _ _ (by omega), List.getD_append _ _ _ _ (by omega)]

theorem claim7_witness :
    scriptMain ["make_factors.py", "4"] noDraws = RunResult.usageError usageMsg ∧
    scriptMain (["make_factors.py", "4", "2", "p"] ++ ["extra"]) noDraws
      = scriptMain ["make_factors.py", "4", "2", "p"] noDraws :=
  ⟨(claim7_usage_amended ["make_factors.py", "4"] [] noDraws).1 (by decide),
   (claim7_usage_amended ["make_factors.py", "4", "2", "p"] ["extra"] noDraws).2 (by decide)⟩

/-- C8: every invocation with missing arguments, a non-parsing `list_length` or
`factor_count`, or a parsed `factor_count` outside `[1, 16]` (this covers 0 and
17) terminates with exit code 1 (a usage error) or a fatal uncaught parse
error, and never succeeds — no output files are created. -/
theorem claim8_invalid_args (args : List String) (draws : Nat → List Nat)
    (h : args.length < 4
      ∨ parseIntArg (args.getD 1 "") = none
      ∨ parseIntArg (args.getD 2 "") = none
      ∨ ∃ fcv, parseIntArg (args.getD 2 "") = some fcv ∧ (fcv < 1 ∨ 16 < fcv)) :
    (scriptMain args draws = RunResult.usageError usageMsg
      ∨ scriptMain args draws = RunResult.usageError rangeMsg
      ∨ scriptMain args draws = RunResult.parseError) ∧
    ∀ files, scriptMain args draws ≠ RunResult.success files := by
  have hred : scriptMain args draws = RunResult.usageError usageMsg
      ∨ scriptMain args draws = RunResult.usageError rangeMsg
      ∨ scriptMain args draws = RunResult.parseError := by
    by_cases h4 : args.length < 4
    · left
      unfold scriptMain
      rw [if_pos h4]
    · rcases h with h | hp1 | hp2 | ⟨fcv, hfc, hrange⟩
      · exact absurd h h4
      · right; right
        unfold scriptMain
        rw [if_neg h4, hp1]
      · right; right
        unfold scriptMain
        rw [if_neg h4, hp2]
        cases parseIntArg (args.getD 1 "") <;> rfl
      · unfold scriptMain
        rw [if_neg h4, hfc]
        cases hll : parseIntArg (args.getD 1 "") with
        | none => right; right; rfl
        | some llv =>
          right; left
          dsimp only
          rw [if_pos hrange]
  refine ⟨hred, ?_⟩
  intro files hcon
  rcases hred with h | h | h <;> rw [h] at hcon <;> exact RunResult.noConfusion hcon

theorem claim8_witness :
    scriptMain ["make_factors.py", "10", "0", "p"] noDraws ≠ RunResult.success [] :=
  (claim8_invalid_args ["make_factors.py", "10", "0", "p"] noDraws
    (Or.inr (Or.inr (Or.inr ⟨0, by decide, by decide⟩)))).2 []

set_option maxRecDepth 40000 in
/-- C9 counterexample: with `list_length = 0` and `factor_count = 3` the run
does not succeed with header-only files as the claim states: the empty sequence
makes `reshape(0, -1)` raise a `ValueError`, an uncaught fatal error. -/
theorem claim9_counterexample :
    scriptMain ["make_factors.py", "0", "3", "p"] noDraws = RunResult.fatal := by
  decide

/-- C9 (amended): the program indeed performs no validation on `list_length`:
`list_length = 0` passes the argument checks for every `factor_count ∈ [1, 16]`,
but the run then crashes before writing anything — the tiled sequence is empty,
so `np.reshape(len(seq), -1)` in `bittify_sequence` raises an uncaught
`ValueError` (modelled as `none`), the process exits with a nonzero status, and
no output files are created. -/
theorem claim9_zero_list_length (fc : Nat) (fp : String) (draws : Nat → List Nat)
    (h1 : 1 ≤ fc) (h2 : fc ≤ 16) :
    make_factor_array 0 fc draws = none ∧ mainFiles 0 fc fp draws = none := by
  have hreps : repsOf 0 fc = 0 := by
    unfold repsOf seqRangeOf
    exact Nat.div_eq_of_lt (by have := Nat.two_pow_pos fc; omega)
  have hseq : runSequence 0 fc draws = [] := by
    rw [runSequence_def, hreps]
    rfl
  have harr : make_factor_array 0 fc draws = none := by
    unfold make_factor_array bittify_sequence
    rw [hseq]
    rfl
  refine ⟨harr, ?_⟩
  unfold mainFiles
  rw [harr]
  rfl

theorem claim9_witness :
    make_factor_array 0 3 noDraws = none ∧ mainFiles 0 3 "p" noDraws = none :=
  claim9_zero_list_length 3 "p" noDraws (by decide) (by decide)

/-- C10: for every row of the factor table of a successful run, recomposing the
row's `factor_count` kept bits big-endian (file 1's bit most significant)
reconstructs exactly the sequence value that row encodes, and all bit columns
discarded by `bits[:, -factor_count:]` are zero for that row — keeping only the
rightmost `factor_count` columns loses no information. -/
theorem claim10_recomposition (ll fc : Nat) (draws : Nat → List Nat)
    (table : List (List Nat)) (h1 : 1 ≤ fc) (h2 : fc ≤ 16)
    (ht : make_factor_array ll fc draws = some table)
    (i : Nat) (hi : i < table.length) :
    bitsRecompose (table.getD i []) = (runSequence ll fc draws).getD i 0 ∧
    (bitsBE 32 ((runSequence ll fc draws).getD i 0)).take (32 - fc)
      = List.replicate (32 - fc) 0 := by
  have hteq := make_factor_array_some ht
  have hilen : i < (runSequence ll fc draws).length := by
    rw [hteq, List.length_map] at hi
    exact hi
  have hvmem : (runSequence ll fc draws).getD i 0 ∈ runSequence ll fc draws := by
    rw [List.getD_eq_getElem _ _ hilen]
    exact List.getElem_mem _
  have hvlt : (runSequence ll fc draws).getD i 0 < 2 ^ fc := by
    rw [runSequence_def] at hvmem
    exact mem_generate_lt hvmem
  constructor
  · rw [hteq, getD_map_of_lt _ _ _ 0 hilen, bitsBE_drop_32 (by omega),
      bitsRecompose_bitsBE hvlt]
  · exact bitsBE_take_32 (by omega) hvlt

set_option maxRecDepth 40000 in
theorem claim10_witness :
    bitsRecompose (([[0, 0], [0, 1], [1, 0], [1, 1]] : List (List Nat)).getD 2 [])
      = (runSequence 4 2 noDraws).getD 2 0 ∧
    (bitsBE 32 ((runSequence 4 2 noDraws).getD 2 0)).take (32 - 2)
      = List.replicate (32 - 2) 0 :=
  claim10_recomposition 4 2 noDraws [[0, 0], [0, 1], [1, 0], [1, 1]]
    (by decide) (by decide) (by decide) 2 (by decide)

end MakeFactors
